import Mathlib

/-!
Verification of the core of `src/pytorch/train_pets.py`: the filename-based
label extraction of the `Pets` dataset, its fixed 37-class vocabulary, the
batch structure produced by the data loader, and the bookkeeping of the
training loop in `train` (counters `example_ct` / `step_ct`, the per-batch
metrics dictionary, and the conditional `wandb.log` emission).

Machine integers do not overflow here (all counters are Python ints), so
counts are `Nat` and wall-clock timestamps / metric values are `ℚ`.
-/

set_option autoImplicit false

namespace TrainPets

/-! ### Label extraction (`Pets.pat`, `Pets.__getitem__`)

The source uses `re.match(r'(^[a-zA-Z]+_*[a-zA-Z]+)', file.name)[0]`.
The pattern is anchored, and with Python's greedy backtracking it matches a
maximal run of ASCII letters, then a maximal run of underscores, then a
maximal run of letters; when no letter follows the underscores the engine
backtracks and the match is the first letter run alone, provided it has at
least two characters (the pattern needs two `[a-zA-Z]+` groups). -/

/-- `[a-zA-Z]` character class of the regex. -/
def isAsciiLetter (c : Char) : Bool :=
  ('a' ≤ c && c ≤ 'z') || ('A' ≤ c && c ≤ 'Z')

/-- Result of `re.match(r'(^[a-zA-Z]+_*[a-zA-Z]+)', s)[0]` on the character
list of `s`: `none` when the regex does not match (in Python `re.match`
returns `None` and subscripting it raises). -/
def reMatchL (s : List Char) : Option (List Char) :=
  let l1 := s.takeWhile isAsciiLetter
  let r1 := s.dropWhile isAsciiLetter
  let u := r1.takeWhile (· == '_')
  let r2 := r1.dropWhile (· == '_')
  let l2 := r2.takeWhile isAsciiLetter
  if l1.isEmpty then none
  else if l2.isEmpty then
    if 2 ≤ l1.length then some l1 else none
  else some (l1 ++ u ++ l2)

/-- String-level wrapper of `reMatchL`. -/
def reMatch (s : String) : Option String :=
  (reMatchL s.data).map fun l => String.mk l

/-- `Pets.vocab`: the static 37-entry class-name list from the source. -/
def vocab : List String :=
  ["Abyssinian", "Bengal", "Birman", "Bombay", "British_Shorthair",
   "Egyptian_Mau", "Maine_Coon", "Persian", "Ragdoll", "Russian_Blue",
   "Siamese", "Sphynx", "american_bulldog", "american_pit", "basset_hound",
   "beagle", "boxer", "chihuahua", "english_cocker", "english_setter",
   "german_shorthaired", "great_pyrenees", "havanese", "japanese_chin",
   "keeshond", "leonberger", "miniature_pinscher", "newfoundland",
   "pomeranian", "pug", "saint_bernard", "samoyed", "scottish_terrier",
   "shiba_inu", "staffordshire_bull", "wheaten_terrier", "yorkshire_terrier"]

/-- `Pets.vocab_map = {v: i for i, v in enumerate(vocab)}` as a lookup:
the index of `s` in `vocab` (`vocab` is duplicate-free, so first-index
lookup agrees with the Python dict built by enumeration). -/
def vocab_map (s : String) : Option Nat :=
  vocab.findIdx? (· == s)

/-- The two fatal failures of `Pets.__getitem__`'s label computation:
`re.match(...)` returning `None` makes the `[0]` subscript raise
(`PatternMismatchError` in the spec's taxonomy), and a token missing from
`vocab_map` raises `KeyError` (`LabelNotFoundError`). -/
inductive DatasetError where
  | patternMismatch : DatasetError
  | labelNotFound : DatasetError
deriving DecidableEq

/-- Label component of `Pets.__getitem__`:
`self.vocab_map[re.match(self.pat, file.name)[0]]`. The image tensor
component (decode / resize / ToTensor) is external I/O and is not modelled;
the dataset is represented by its list of file base names. -/
def getitem (files : List String) (i : Nat) (h : i < files.length) :
    Except DatasetError Nat :=
  match reMatch (files.get ⟨i, h⟩) with
  | none => .error .patternMismatch
  | some tok =>
    match vocab_map tok with
    | none => .error .labelNotFound
    | some j => .ok j

/-- Modelled from the spec: the spec's §3 label-extraction rule, "a
deterministic pattern match extracts a leading alphabetic token (letters and
underscores only, no digits)", read as the maximal leading run of letters
and underscores. Kept separate from `reMatch` (which embeds the source's
regex) for refinement comparison. -/
def specLeadingToken (s : String) : Option String :=
  let t := s.data.takeWhile fun c => isAsciiLetter c || c == '_'
  if t.isEmpty then none else some (String.mk t)

/-! ### Batches (`get_dataloader`, `torch.utils.data.DataLoader`)

The loader is built with the default `drop_last=False`, so one epoch yields
`n / b` full batches of size `b` followed by one batch of size `n % b` when
the division is not exact. -/

/-- Sizes of the batches one epoch of the `DataLoader` yields, in order. -/
def batchSizes (n b : Nat) : List Nat :=
  List.replicate (n / b) b ++ (if n % b = 0 then [] else [n % b])

/-- `n_steps_per_epoch = math.ceil(len(train_dl.dataset) / config.batch_size)`
(line 138), as exact natural-number ceiling division. -/
def n_steps_per_epoch (n b : Nat) : Nat :=
  (n + b - 1) / b

/-! ### The training loop (`train`, lines 153-188)

The loop body per batch: run the optimisation step between timestamps
`ti = perf_counter()` and `tf = perf_counter()`, update
`example_ct += len(images)`, build the metrics dict, call `wandb.log`
only when `step + 1 < n_steps_per_epoch`, then `step_ct += 1`.
Timestamps are parameters: `t0s e` is the `t0 = perf_counter()` taken at
the start of epoch `e`, and `tI e s` / `tF e s` the `ti` / `tf` readings
of step `s` of epoch `e`. The loss value is opaque (it depends on the
model and data tensors) and is not modelled. -/

/-- One metrics record as built on lines 177-181, together with the loop
indices `epoch` / `step` and the emission decision `step + 1 <
n_steps_per_epoch` of line 183 as trace instrumentation. -/
structure StepRecord where
  epoch : Nat
  step : Nat
  train_epoch : ℚ
  example_ct : Nat
  samples_per_sec : ℚ
  samples_per_sec_epoch : ℚ
  emitted : Bool
deriving DecidableEq

/-- Inner loop of `train` over the batches of one epoch. Arguments after
the timestamps: current step index, `example_ct`, `step_ct`, remaining
batch sizes. Returns the trace of records plus the final
(`example_ct`, `step_ct`). -/
def runSteps (nSteps epoch : Nat) (t0 : ℚ) (tI tF : Nat → ℚ) :
    Nat → Nat → Nat → List Nat → List StepRecord × Nat × Nat
  | _, exCt, stCt, [] => ([], exCt, stCt)
  | step, exCt, stCt, b :: bs =>
    let exCt2 := exCt + b
    let m : StepRecord :=
      { epoch := epoch
        step := step
        train_epoch := ((step + 1 + nSteps * epoch : Nat) : ℚ) / (nSteps : ℚ)
        example_ct := exCt2
        samples_per_sec := (b : ℚ) / (tF step - tI step)
        samples_per_sec_epoch := (exCt2 : ℚ) / (tF step - t0)
        emitted := decide (step + 1 < nSteps) }
    let r := runSteps nSteps epoch t0 tI tF (step + 1) exCt2 (stCt + 1) bs
    (m :: r.1, r.2)

/-- Outer loop of `train` over epochs: `rem` epochs remain, the next one
has index `epoch`. -/
def runEpochs (nSteps n b : Nat) (t0s : Nat → ℚ) (tI tF : Nat → Nat → ℚ) :
    Nat → Nat → Nat → Nat → List StepRecord × Nat × Nat
  | 0, _, exCt, stCt => ([], exCt, stCt)
  | rem + 1, epoch, exCt, stCt =>
    let e := runSteps nSteps epoch (t0s epoch) (tI epoch) (tF epoch)
      0 exCt stCt (batchSizes n b)
    let rest := runEpochs nSteps n b t0s tI tF rem (epoch + 1) e.2.1 e.2.2
    (e.1 ++ rest.1, rest.2)

/-- `train` (lines 126-188): computes `n_steps_per_epoch` once, then starts
with `example_ct = 0`, `step_ct = 0` and iterates `epochs` epochs. Returns
the full metrics trace and the final counters. -/
def train (n b epochs : Nat) (t0s : Nat → ℚ) (tI tF : Nat → Nat → ℚ) :
    List StepRecord × Nat × Nat :=
  runEpochs (n_steps_per_epoch n b) n b t0s tI tF epochs 0 0 0

/-- The records actually sent to `wandb.log`. -/
def emittedLog (n b epochs : Nat) (t0s : Nat → ℚ) (tI tF : Nat → Nat → ℚ) :
    List StepRecord :=
  (train n b epochs t0s tI tF).1.filter (·.emitted)

/-! Concrete timestamp families used for evaluating the loop on small runs:
epoch `e` starts at time `10 e`, step `s` of epoch `e` runs from `10 e + s`
to `10 e + s + 1`. -/

def tZero : Nat → ℚ := fun e => 10 * e

def tStart : Nat → Nat → ℚ := fun e s => 10 * e + s

def tEnd : Nat → Nat → ℚ := fun e s => 10 * e + s + 1

/-- Running totals of a list of batch sizes starting from `a`: the
successive values of `example_ct`. -/
def cumSums (a : Nat) : List Nat → List Nat
  | [] => []
  | b :: bs => (a + b) :: cumSums (a + b) bs

/-- The batch sizes of `rem` consecutive epochs (every epoch replays the
same loader). -/
def totalBatches (n b : Nat) : Nat → List Nat
  | 0 => []
  | rem + 1 => batchSizes n b ++ totalBatches n b rem

/-- A token of the language of the regex `[a-zA-Z]+_*[a-zA-Z]+`: a nonempty
letter run, an underscore run, and a further nonempty letter run. -/
def isPatToken (t : List Char) : Prop :=
  ∃ a u c, t = a ++ u ++ c ∧ a ≠ [] ∧ c ≠ [] ∧
    (∀ x ∈ a, isAsciiLetter x = true) ∧ (∀ x ∈ u, x = '_') ∧
    (∀ x ∈ c, isAsciiLetter x = true)

/-- A two-file dataset exercising both failure modes of `getitem`:
`"zebra"` matches the pattern but is not in the vocabulary, and `"123.jpg"`
does not match the pattern at all. -/
def filesEx : List String := ["zebra_1.jpg", "123.jpg"]

/-- The first record of the run `train 4 2 1 tZero tStart tEnd`
(epoch 0, step 0, batch size 2, elapsed step time 1, elapsed epoch time 1):
used to instantiate per-record theorems at a concrete input. -/
def recEx : StepRecord :=
  { epoch := 0
    step := 0
    train_epoch := 1 / 2
    example_ct := 2
    samples_per_sec := 2
    samples_per_sec_epoch := 2
    emitted := true }

end TrainPets



namespace TrainPets

/-! ### Lemmas about the batch structure -/

theorem ceil_div_aux (n b : Nat) (hb : 0 < b) :
    (n + b - 1) / b = n / b + (if n % b = 0 then 0 else 1) := by
  have hmod := Nat.mod_lt n hb
  have hsplit := Nat.div_add_mod n b
  rcases Nat.eq_zero_or_pos (n % b) with h | h
  · have h1 : n + b - 1 = b * (n / b) + (b - 1) := by omega
    have hd1 : (b - 1) / b = 0 := Nat.div_eq_of_lt (by omega)
    rw [h1, Nat.mul_add_div hb, hd1]
    simp [h]
  · have h1 : n + b - 1 = b * (n / b) + (b + (n % b - 1)) := by omega
    have hd1 : (n % b - 1) / b = 0 := Nat.div_eq_of_lt (by omega)
    rw [h1, Nat.mul_add_div hb, Nat.add_div_left _ hb, hd1]
    have h2 : ¬ n % b = 0 := by omega
    simp [h2]

theorem batchSizes_sum (n b : Nat) (_hb : 0 < b) : (batchSizes n b).sum = n := by
  have hsplit := Nat.div_add_mod n b
  have hc : n / b * b = b * (n / b) := Nat.mul_comm _ _
  unfold batchSizes
  rcases Nat.eq_zero_or_pos (n % b) with h | h
  · simp [h, List.sum_replicate, smul_eq_mul]
    omega
  · simp [Nat.pos_iff_ne_zero.mp h, List.sum_replicate, smul_eq_mul]
    omega

theorem batchSizes_length (n b : Nat) (hb : 0 < b) :
    (batchSizes n b).length = n_steps_per_epoch n b := by
  unfold batchSizes n_steps_per_epoch
  rw [ceil_div_aux n b hb]
  rcases Nat.eq_zero_or_pos (n % b) with h | h
  · simp [h]
  · simp [Nat.pos_iff_ne_zero.mp h]

theorem batchSizes_pos (n b : Nat) (hb : 0 < b) :
    ∀ x ∈ batchSizes n b, 0 < x := by
  intro x hx
  unfold batchSizes at hx
  rcases List.mem_append.mp hx with h | h
  · rw [List.eq_of_mem_replicate h]; exact hb
  · rcases Nat.eq_zero_or_pos (n % b) with h0 | h0
    · simp [h0] at h
    · simp [Nat.pos_iff_ne_zero.mp h0] at h
      omega

theorem batchSizes_le (n b : Nat) (hb : 0 < b) :
    ∀ x ∈ batchSizes n b, x ≤ b := by
  intro x hx
  unfold batchSizes at hx
  rcases List.mem_append.mp hx with h | h
  · rw [List.eq_of_mem_replicate h]
  · rcases Nat.eq_zero_or_pos (n % b) with h0 | h0
    · simp [h0] at h
    · simp [Nat.pos_iff_ne_zero.mp h0] at h
      subst h
      exact Nat.le_of_lt (Nat.mod_lt n hb)

theorem batchSizes_of_dvd (n b : Nat) (_hb : 0 < b) (h : b ∣ n) :
    batchSizes n b = List.replicate (n / b) b := by
  obtain ⟨q, rfl⟩ := h
  simp [batchSizes, Nat.mul_mod_right]

/-- `n` examples never exceed `n_steps_per_epoch` batches of size `b`. -/
theorem n_steps_mul_ge (n b : Nat) (hb : 0 < b) :
    n ≤ n_steps_per_epoch n b * b := by
  unfold n_steps_per_epoch
  have e1 := Nat.div_add_mod (n + b - 1) b
  have e2 := Nat.mod_lt (n + b - 1) hb
  have hcomm : (n + b - 1) / b * b = b * ((n + b - 1) / b) := Nat.mul_comm _ _
  omega

/-- One fewer batch does not cover the `n` examples. -/
theorem n_steps_pred_mul_lt (n b : Nat) (hb : 0 < b) (hn : 0 < n) :
    (n_steps_per_epoch n b - 1) * b < n := by
  unfold n_steps_per_epoch
  have e1 := Nat.div_add_mod (n + b - 1) b
  have e2 := Nat.mod_lt (n + b - 1) hb
  have hcomm : (n + b - 1) / b * b = b * ((n + b - 1) / b) := Nat.mul_comm _ _
  have hk1 : 1 ≤ (n + b - 1) / b := by
    rw [Nat.le_div_iff_mul_le hb]
    omega
  have hkk : (n + b - 1) / b - 1 + 1 = (n + b - 1) / b := by omega
  have hz : ((n + b - 1) / b - 1 + 1) * b = ((n + b - 1) / b - 1) * b + b :=
    Nat.succ_mul _ _
  rw [hkk] at hz
  omega

/-- `math.ceil(n / b)` with exact rational division agrees with the
natural-number formula `(n + b - 1) / b` of the embedding. -/
theorem n_steps_per_epoch_eq_ceil (n b : Nat) (hb : 0 < b) :
    n_steps_per_epoch n b = ⌈(n : ℚ) / (b : ℚ)⌉₊ := by
  have hbQ : (0 : ℚ) < (b : ℚ) := by exact_mod_cast hb
  rcases Nat.eq_zero_or_pos n with rfl | hn
  · have hd : (0 + b - 1) / b = 0 := Nat.div_eq_of_lt (by omega)
    unfold n_steps_per_epoch
    rw [hd]
    simp
  · have h1 := n_steps_mul_ge n b hb
    have h2 := n_steps_pred_mul_lt n b hb hn
    have hk0 : n_steps_per_epoch n b ≠ 0 := by
      intro h0
      rw [h0] at h1
      omega
    symm
    rw [Nat.ceil_eq_iff hk0]
    refine ⟨?_, ?_⟩
    · rw [lt_div_iff₀ hbQ]
      exact_mod_cast h2
    · rw [div_le_iff₀ hbQ]
      calc (n : ℚ) ≤ ((n_steps_per_epoch n b * b : Nat) : ℚ) := by exact_mod_cast h1
        _ = (n_steps_per_epoch n b : ℚ) * b := by push_cast; ring

end TrainPets

namespace TrainPets

/-! ### Lemmas about `cumSums` and `totalBatches` -/

theorem cumSums_append (a : Nat) (xs ys : List Nat) :
    cumSums a (xs ++ ys) = cumSums a xs ++ cumSums (a + xs.sum) ys := by
  induction xs generalizing a with
  | nil => simp [cumSums]
  | cons x xs ih => simp [cumSums, ih, Nat.add_assoc]

theorem cumSums_mem_gt (a : Nat) (bs : List Nat) (hpos : ∀ x ∈ bs, 0 < x) :
    ∀ y ∈ cumSums a bs, a < y := by
  induction bs generalizing a with
  | nil => simp [cumSums]
  | cons b bs ih =>
    intro y hy
    simp only [cumSums, List.mem_cons] at hy
    have hb := hpos b (by simp)
    rcases hy with rfl | hy
    · omega
    · have := ih (a + b) (fun x hx => hpos x (by simp [hx])) y hy
      omega

theorem cumSums_chain (a : Nat) (bs : List Nat) (hpos : ∀ x ∈ bs, 0 < x) :
    List.Chain' (· < ·) (cumSums a bs) := by
  induction bs generalizing a with
  | nil => simp [cumSums]
  | cons b bs ih =>
    rw [cumSums, List.chain'_cons']
    refine ⟨?_, ih (a + b) (fun x hx => hpos x (by simp [hx]))⟩
    intro y hy
    exact cumSums_mem_gt (a + b) bs (fun x hx => hpos x (by simp [hx])) y
      (List.mem_of_mem_head? hy)

theorem totalBatches_pos (n b : Nat) (hb : 0 < b) :
    ∀ rem, ∀ x ∈ totalBatches n b rem, 0 < x := by
  intro rem
  induction rem with
  | zero => simp [totalBatches]
  | succ rem ih =>
    intro x hx
    rcases List.mem_append.mp hx with h | h
    · exact batchSizes_pos n b hb x h
    · exact ih x h

/-! ### Per-step lemmas about `runSteps` -/

theorem runSteps_length (k e : Nat) (t0 : ℚ) (tI tF : Nat → ℚ) (bs : List Nat) :
    ∀ st ex sc, ((runSteps k e t0 tI tF st ex sc bs).1).length = bs.length := by
  induction bs with
  | nil => intro st ex sc; simp [runSteps]
  | cons b bs ih => intro st ex sc; simp [runSteps, ih]

theorem runSteps_final (k e : Nat) (t0 : ℚ) (tI tF : Nat → ℚ) (bs : List Nat) :
    ∀ st ex sc,
      (runSteps k e t0 tI tF st ex sc bs).2 = (ex + bs.sum, sc + bs.length) := by
  induction bs with
  | nil => intro st ex sc; simp [runSteps]
  | cons b bs ih =>
    intro st ex sc
    simp [runSteps, ih, Prod.ext_iff]
    omega

theorem runSteps_map_example (k e : Nat) (t0 : ℚ) (tI tF : Nat → ℚ)
    (bs : List Nat) :
    ∀ st ex sc,
      (runSteps k e t0 tI tF st ex sc bs).1.map (fun r => r.example_ct)
        = cumSums ex bs := by
  induction bs with
  | nil => intro _ _ _; simp [runSteps, cumSums]
  | cons b bs ih => intro st ex sc; simp [runSteps, cumSums, ih]

/-- Shape of every record produced by the inner loop. -/
theorem runSteps_mem (k e : Nat) (t0 : ℚ) (tI tF : Nat → ℚ) (bs : List Nat) :
    ∀ st ex sc r, r ∈ (runSteps k e t0 tI tF st ex sc bs).1 →
      r.epoch = e ∧ st ≤ r.step ∧ r.step < st + bs.length ∧
      r.emitted = decide (r.step + 1 < k) ∧
      r.train_epoch = ((r.step + 1 + k * e : Nat) : ℚ) / (k : ℚ) ∧
      (∃ bj, bs[r.step - st]? = some bj ∧
        r.samples_per_sec = (bj : ℚ) / (tF r.step - tI r.step)) ∧
      r.samples_per_sec_epoch = (r.example_ct : ℚ) / (tF r.step - t0) ∧
      r.example_ct = ex + (bs.take (r.step - st + 1)).sum := by
  induction bs with
  | nil => intro st ex sc r hr; simp [runSteps] at hr
  | cons b bs ih =>
    intro st ex sc r hr
    simp only [runSteps, List.mem_cons] at hr
    rcases hr with rfl | hr
    · refine ⟨rfl, Nat.le_refl _, by simp, rfl, rfl, ⟨b, ?_, rfl⟩, rfl, ?_⟩
      · simp
      · simp
    · obtain ⟨h1, h2, h3, h4, h5, ⟨bj, h6, h7⟩, h8, h9⟩ :=
        ih (st + 1) (ex + b) (sc + 1) r hr
      have hst : st ≤ r.step := by omega
      have hsub : r.step - st = (r.step - (st + 1)) + 1 := by omega
      refine ⟨h1, hst, by simp only [List.length_cons]; omega, h4, h5,
        ⟨bj, ?_, h7⟩, h8, ?_⟩
      · rw [hsub]
        simpa using h6
      · rw [hsub]
        simp only [List.take_succ_cons, List.sum_cons]
        omega

theorem runSteps_emitted_count (k e : Nat) (t0 : ℚ) (tI tF : Nat → ℚ)
    (bs : List Nat) :
    ∀ st ex sc,
      ((runSteps k e t0 tI tF st ex sc bs).1.filter (fun r => r.emitted)).length
        = min bs.length (k - 1 - st) := by
  induction bs with
  | nil => intro _ _ _; simp [runSteps]
  | cons b bs ih =>
    intro st ex sc
    simp only [runSteps, List.filter_cons]
    rcases Nat.lt_or_ge (st + 1) k with h | h
    · simp [h, ih]
      omega
    · simp [Nat.not_lt.mpr h, ih]
      omega

end TrainPets

namespace TrainPets

/-! ### Epoch-level lemmas about `runEpochs` and `train` -/

theorem runEpochs_final (k n b : Nat) (t0s : Nat → ℚ) (tI tF : Nat → Nat → ℚ) :
    ∀ rem e0 ex sc,
      (runEpochs k n b t0s tI tF rem e0 ex sc).2 =
        (ex + rem * (batchSizes n b).sum, sc + rem * (batchSizes n b).length) := by
  intro rem
  induction rem with
  | zero => intro e0 ex sc; simp [runEpochs]
  | succ rem ih =>
    intro e0 ex sc
    simp only [runEpochs, runSteps_final, ih, Prod.ext_iff, Nat.succ_mul]
    omega

theorem runEpochs_map_example (k n b : Nat) (t0s : Nat → ℚ)
    (tI tF : Nat → Nat → ℚ) :
    ∀ rem e0 ex sc,
      (runEpochs k n b t0s tI tF rem e0 ex sc).1.map (fun r => r.example_ct)
        = cumSums ex (totalBatches n b rem) := by
  intro rem
  induction rem with
  | zero => intro e0 ex sc; simp [runEpochs, totalBatches, cumSums]
  | succ rem ih =>
    intro e0 ex sc
    simp only [runEpochs, totalBatches, List.map_append, cumSums_append,
      runSteps_map_example, runSteps_final, ih]

theorem runEpochs_length (k n b : Nat) (t0s : Nat → ℚ) (tI tF : Nat → Nat → ℚ) :
    ∀ rem e0 ex sc,
      (runEpochs k n b t0s tI tF rem e0 ex sc).1.length
        = rem * (batchSizes n b).length := by
  intro rem
  induction rem with
  | zero => intro e0 ex sc; simp [runEpochs]
  | succ rem ih =>
    intro e0 ex sc
    simp only [runEpochs, List.length_append, runSteps_length, ih, Nat.succ_mul]
    omega

theorem runEpochs_emitted_count (k n b : Nat) (t0s : Nat → ℚ)
    (tI tF : Nat → Nat → ℚ) :
    ∀ rem e0 ex sc,
      ((runEpochs k n b t0s tI tF rem e0 ex sc).1.filter
          (fun r => r.emitted)).length
        = rem * min (batchSizes n b).length (k - 1) := by
  intro rem
  induction rem with
  | zero => intro e0 ex sc; simp [runEpochs]
  | succ rem ih =>
    intro e0 ex sc
    simp only [runEpochs, List.filter_append, List.length_append,
      runSteps_emitted_count, ih, Nat.succ_mul]
    have h0 : k - 1 - 0 = k - 1 := rfl
    rw [h0]
    omega

/-- Shape of every record produced by a whole run segment. -/
theorem runEpochs_mem (k n b : Nat) (t0s : Nat → ℚ) (tI tF : Nat → Nat → ℚ) :
    ∀ rem e0 ex sc r, r ∈ (runEpochs k n b t0s tI tF rem e0 ex sc).1 →
      e0 ≤ r.epoch ∧ r.epoch < e0 + rem ∧
      r.step < (batchSizes n b).length ∧
      r.emitted = decide (r.step + 1 < k) ∧
      r.train_epoch = ((r.step + 1 + k * r.epoch : Nat) : ℚ) / (k : ℚ) ∧
      (∃ bj, (batchSizes n b)[r.step]? = some bj ∧
        r.samples_per_sec = (bj : ℚ) / (tF r.epoch r.step - tI r.epoch r.step)) ∧
      r.samples_per_sec_epoch
        = (r.example_ct : ℚ) / (tF r.epoch r.step - t0s r.epoch) ∧
      r.example_ct = ex + (r.epoch - e0) * (batchSizes n b).sum
        + ((batchSizes n b).take (r.step + 1)).sum := by
  intro rem
  induction rem with
  | zero => intro e0 ex sc r hr; simp [runEpochs] at hr
  | succ rem ih =>
    intro e0 ex sc r hr
    simp only [runEpochs] at hr
    rcases List.mem_append.mp hr with h | h
    · obtain ⟨h1, _h2, h3, h4, h5, ⟨bj, h6, h7⟩, h8, h9⟩ :=
        runSteps_mem k e0 (t0s e0) (tI e0) (tF e0) (batchSizes n b) 0 ex sc r h
      subst h1
      refine ⟨Nat.le_refl _, by omega, by simpa using h3, h4, h5,
        ⟨bj, by simpa using h6, h7⟩, h8, ?_⟩
      simp only [Nat.sub_self, Nat.zero_mul, Nat.add_zero]
      simpa using h9
    · obtain ⟨h1, h2, h3, h4, h5, h6, h7, h8⟩ :=
        ih (e0 + 1) (ex + (batchSizes n b).sum) (sc + (batchSizes n b).length)
          r (by simpa [runSteps_final] using h)
      refine ⟨by omega, by omega, h3, h4, h5, h6, h7, ?_⟩
      rw [h8]
      have hge : e0 + 1 ≤ r.epoch := h1
      have hsub : r.epoch - e0 = (r.epoch - (e0 + 1)) + 1 := by omega
      rw [hsub, Nat.succ_mul]
      omega

end TrainPets

namespace TrainPets

/-! ### Claim theorems: the training loop -/

/-- C1: every epoch emits a metrics record for exactly the first
`n_steps_per_epoch - 1` batches and suppresses the final batch; a record is
emitted iff `step + 1 < n_steps_per_epoch`, and for epochs = 2 with
`n_steps_per_epoch = 4` (n = 8, b = 2) exactly 6 records are emitted. -/
theorem c1_last_batch_suppressed :
    (∀ n b epochs (t0s : Nat → ℚ) (tI tF : Nat → Nat → ℚ), 0 < b →
      (emittedLog n b epochs t0s tI tF).length
          = epochs * (n_steps_per_epoch n b - 1) ∧
      ∀ r ∈ (train n b epochs t0s tI tF).1,
        (r.emitted = true ↔ r.step + 1 < n_steps_per_epoch n b)) ∧
    (emittedLog 8 2 2 tZero tStart tEnd).length = 6 := by
  constructor
  · intro n b epochs t0s tI tF hb
    constructor
    · unfold emittedLog train
      rw [runEpochs_emitted_count, batchSizes_length n b hb]
      have hmin : min (n_steps_per_epoch n b) (n_steps_per_epoch n b - 1)
          = n_steps_per_epoch n b - 1 := by omega
      rw [hmin]
    · intro r hr
      unfold train at hr
      obtain ⟨_, _, _, h4, _⟩ :=
        runEpochs_mem (n_steps_per_epoch n b) n b t0s tI tF epochs 0 0 0 r hr
      rw [h4]
      simp
  · decide

theorem c1_last_batch_suppressed_witness :
    0 < 2 ∧
    ((emittedLog 8 2 2 tZero tStart tEnd).length
        = 2 * (n_steps_per_epoch 8 2 - 1) ∧
      ∀ r ∈ (train 8 2 2 tZero tStart tEnd).1,
        (r.emitted = true ↔ r.step + 1 < n_steps_per_epoch 8 2)) :=
  ⟨by decide, c1_last_batch_suppressed.1 8 2 2 tZero tStart tEnd (by decide)⟩

/-- C6: `n_steps_per_epoch` is the rational ceiling of `n / b`, the loader
covers the dataset in exactly `n_steps_per_epoch` batches of total size `n`
with every batch at most `b`, and concretely for `n = 100`, `b = 32` there
are 4 steps per epoch with final batch of size 4. -/
theorem c6_steps_per_epoch_ceil :
    (∀ n b, 0 < b →
      n_steps_per_epoch n b = ⌈(n : ℚ) / (b : ℚ)⌉₊ ∧
      (batchSizes n b).length = n_steps_per_epoch n b ∧
      (batchSizes n b).sum = n ∧
      ∀ x ∈ batchSizes n b, x ≤ b) ∧
    n_steps_per_epoch 100 32 = 4 ∧ batchSizes 100 32 = [32, 32, 32, 4] := by
  refine ⟨fun n b hb => ⟨n_steps_per_epoch_eq_ceil n b hb,
    batchSizes_length n b hb, batchSizes_sum n b hb, batchSizes_le n b hb⟩,
    by decide, by decide⟩

theorem c6_steps_per_epoch_ceil_witness :
    0 < 32 ∧
    (n_steps_per_epoch 100 32 = ⌈(100 : ℚ) / (32 : ℚ)⌉₊ ∧
      (batchSizes 100 32).length = n_steps_per_epoch 100 32 ∧
      (batchSizes 100 32).sum = 100 ∧
      ∀ x ∈ batchSizes 100 32, x ≤ 32) :=
  ⟨by decide, c6_steps_per_epoch_ceil.1 100 32 (by decide)⟩

/-- C7: the successive values of `example_ct` are the running totals of the
actual batch sizes (so `example_ct` grows by the actual batch size after
every batch and is strictly increasing), one epoch's batch sizes sum to the
dataset size exactly, and after `epochs` epochs `example_ct = epochs * n`
(in particular at the end of 1-indexed epoch `e` it is `e * n`). -/
theorem c7_example_ct_monotone :
    ∀ n b epochs (t0s : Nat → ℚ) (tI tF : Nat → Nat → ℚ), 0 < b →
      (train n b epochs t0s tI tF).1.map (fun r => r.example_ct)
          = cumSums 0 (totalBatches n b epochs) ∧
      List.Chain' (· < ·)
        ((train n b epochs t0s tI tF).1.map (fun r => r.example_ct)) ∧
      (batchSizes n b).sum = n ∧
      (train n b epochs t0s tI tF).2.1 = epochs * n := by
  intro n b epochs t0s tI tF hb
  have hmap : (train n b epochs t0s tI tF).1.map (fun r => r.example_ct)
      = cumSums 0 (totalBatches n b epochs) := by
    unfold train
    exact runEpochs_map_example (n_steps_per_epoch n b) n b t0s tI tF epochs 0 0 0
  refine ⟨hmap, ?_, batchSizes_sum n b hb, ?_⟩
  · rw [hmap]
    exact cumSums_chain 0 _ (totalBatches_pos n b hb epochs)
  · unfold train
    rw [runEpochs_final]
    simp [batchSizes_sum n b hb]

theorem c7_example_ct_monotone_witness :
    0 < 2 ∧
    ((train 4 2 2 tZero tStart tEnd).1.map (fun r => r.example_ct)
        = cumSums 0 (totalBatches 4 2 2) ∧
      List.Chain' (· < ·)
        ((train 4 2 2 tZero tStart tEnd).1.map (fun r => r.example_ct)) ∧
      (batchSizes 4 2).sum = 4 ∧
      (train 4 2 2 tZero tStart tEnd).2.1 = 2 * 4) :=
  ⟨by decide, c7_example_ct_monotone 4 2 2 tZero tStart tEnd (by decide)⟩

/-- C10: `step_ct` is incremented once per batch (also for the suppressed
final batch of each epoch): it ends at `epochs * n_steps_per_epoch` and
equals the number of per-batch records of the whole run. -/
theorem c10_step_ct_total :
    ∀ n b epochs (t0s : Nat → ℚ) (tI tF : Nat → Nat → ℚ), 0 < b →
      (train n b epochs t0s tI tF).2.2 = epochs * n_steps_per_epoch n b ∧
      (train n b epochs t0s tI tF).2.2
        = (train n b epochs t0s tI tF).1.length := by
  intro n b epochs t0s tI tF hb
  unfold train
  rw [runEpochs_final, runEpochs_length, batchSizes_length n b hb]
  simp

theorem c10_step_ct_total_witness :
    0 < 2 ∧
    ((train 4 2 3 tZero tStart tEnd).2.2 = 3 * n_steps_per_epoch 4 2 ∧
      (train 4 2 3 tZero tStart tEnd).2.2
        = (train 4 2 3 tZero tStart tEnd).1.length) :=
  ⟨by decide, c10_step_ct_total 4 2 3 tZero tStart tEnd (by decide)⟩

/-- C8: every record's `train/epoch` metric equals
`(step + 1 + n_steps_per_epoch * epoch) / n_steps_per_epoch`, and in the
run with `n_steps_per_epoch = 4` the record of epoch 0, step 3 has value
exactly 1. -/
theorem c8_fractional_epoch :
    (∀ n b epochs (t0s : Nat → ℚ) (tI tF : Nat → Nat → ℚ) r,
      r ∈ (train n b epochs t0s tI tF).1 →
      r.train_epoch
        = ((r.step + 1 + n_steps_per_epoch n b * r.epoch : Nat) : ℚ)
            / (n_steps_per_epoch n b : ℚ)) ∧
    ((train 8 2 1 tZero tStart tEnd).1.map
        (fun r => (r.epoch, r.step, r.train_epoch)))[3]? = some (0, 3, 1) := by
  constructor
  · intro n b epochs t0s tI tF r hr
    unfold train at hr
    obtain ⟨_, _, _, _, h5, _⟩ :=
      runEpochs_mem (n_steps_per_epoch n b) n b t0s tI tF epochs 0 0 0 r hr
    exact h5
  · norm_num [train, runEpochs, runSteps, batchSizes, n_steps_per_epoch,
      tZero, tStart, tEnd]

theorem c8_fractional_epoch_witness :
    recEx ∈ (train 4 2 1 tZero tStart tEnd).1 ∧
    recEx.train_epoch
      = ((recEx.step + 1 + n_steps_per_epoch 4 2 * recEx.epoch : Nat) : ℚ)
          / (n_steps_per_epoch 4 2 : ℚ) := by
  have hmem : recEx ∈ (train 4 2 1 tZero tStart tEnd).1 := by
    norm_num [recEx, train, runEpochs, runSteps, batchSizes,
      n_steps_per_epoch, tZero, tStart, tEnd, List.mem_cons]
  exact ⟨hmem, c8_fractional_epoch.1 4 2 1 tZero tStart tEnd recEx hmem⟩

/-- C9: every record that is actually emitted has fractional-epoch value
strictly below `epoch + 1`: the whole-number epoch-boundary value is never
sent to the metrics sink. -/
theorem c9_boundary_never_emitted :
    ∀ n b epochs (t0s : Nat → ℚ) (tI tF : Nat → Nat → ℚ) r,
      r ∈ (train n b epochs t0s tI tF).1 → r.emitted = true →
      r.train_epoch < (r.epoch : ℚ) + 1 := by
  intro n b epochs t0s tI tF r hr hem
  unfold train at hr
  obtain ⟨_, _, _, h4, h5, _⟩ :=
    runEpochs_mem (n_steps_per_epoch n b) n b t0s tI tF epochs 0 0 0 r hr
  rw [hem] at h4
  have hlt : r.step + 1 < n_steps_per_epoch n b := of_decide_eq_true h4.symm
  have hk : 0 < n_steps_per_epoch n b := by omega
  have hkQ : (0 : ℚ) < (n_steps_per_epoch n b : ℚ) := by exact_mod_cast hk
  rw [h5, div_lt_iff₀ hkQ]
  have hnat : r.step + 1 + n_steps_per_epoch n b * r.epoch
      < (r.epoch + 1) * n_steps_per_epoch n b := by
    have h1 : (r.epoch + 1) * n_steps_per_epoch n b
        = r.epoch * n_steps_per_epoch n b + n_steps_per_epoch n b :=
      Nat.succ_mul _ _
    have h2 : n_steps_per_epoch n b * r.epoch
        = r.epoch * n_steps_per_epoch n b := Nat.mul_comm _ _
    omega
  calc ((r.step + 1 + n_steps_per_epoch n b * r.epoch : Nat) : ℚ)
      < (((r.epoch + 1) * n_steps_per_epoch n b : Nat) : ℚ) := by
        exact_mod_cast hnat
    _ = ((r.epoch : ℚ) + 1) * (n_steps_per_epoch n b : ℚ) := by
        push_cast; ring

theorem c9_boundary_never_emitted_witness :
    recEx ∈ (train 4 2 1 tZero tStart tEnd).1 ∧
    recEx.train_epoch < (recEx.epoch : ℚ) + 1 := by
  have hmem : recEx ∈ (train 4 2 1 tZero tStart tEnd).1 := by
    norm_num [recEx, train, runEpochs, runSteps, batchSizes,
      n_steps_per_epoch, tZero, tStart, tEnd, List.mem_cons]
  exact ⟨hmem,
    c9_boundary_never_emitted 4 2 1 tZero tStart tEnd recEx hmem rfl⟩

/-- C5: evaluation of the run `n = 4`, `b = 2`, `epochs = 2` (epoch `e`
starts at time `10 e`; step `s` ends at `10 e + s + 1`). The emitted record
of epoch 1, step 0 carries `samples_per_sec_epoch = 6`: the numerator is
the run-cumulative `example_ct = 6`, not the examples processed since the
start of epoch 1, which are `6 - 4 = 2` and would give `2 / 1 = 2`. -/
theorem c5_epoch_throughput_eval :
    ((train 4 2 2 tZero tStart tEnd).1.map
        (fun r => (r.epoch, r.step, r.example_ct, r.emitted)))
      = [(0, 0, 2, true), (0, 1, 4, false), (1, 0, 6, true), (1, 1, 8, false)] ∧
    ((train 4 2 2 tZero tStart tEnd).1.map
        (fun r => r.samples_per_sec_epoch))[2]? = some 6 ∧
    tEnd 1 0 - tZero 1 = 1 ∧
    ((6 : ℚ) - 4) / (tEnd 1 0 - tZero 1) = 2 ∧
    (6 : ℚ) ≠ 2 := by
  refine ⟨by decide, ?_, by norm_num [tEnd, tZero], by norm_num [tEnd, tZero],
    by norm_num⟩
  norm_num [train, runEpochs, runSteps, batchSizes, n_steps_per_epoch,
    tZero, tStart, tEnd]

end TrainPets

namespace TrainPets

/-! ### Claim theorems: label extraction and vocabulary -/

/-- Looking up the `j`-th vocabulary entry in `vocab_map` returns `j`. -/
theorem vocab_map_get : ∀ j : Fin vocab.length,
    vocab_map (vocab.get j) = some j.val := by decide

/-- C3: the vocabulary has exactly 37 pairwise-distinct entries, the
name-to-index map sends the `j`-th entry to `j` (a bijection onto
`[0, 37)`), and whenever the extracted token of file `i` is the `j`-th
vocabulary entry, `getitem` returns `j`. -/
theorem c3_vocab_class_index :
    vocab.length = 37 ∧ vocab.Nodup ∧
    (∀ j : Fin vocab.length, vocab_map (vocab.get j) = some j.val) ∧
    (∀ files i (h : i < files.length) (j : Fin vocab.length),
      reMatch (files.get ⟨i, h⟩) = some (vocab.get j) →
      getitem files i h = Except.ok j.val) := by
  refine ⟨by decide, by decide, vocab_map_get, ?_⟩
  intro files i h j hm
  have hv := vocab_map_get j
  simp only [List.get_eq_getElem] at hm hv
  simp [getitem, hm, hv]

theorem c3_vocab_class_index_witness :
    reMatch (["Abyssinian_1.jpg"].get ⟨0, by decide⟩)
        = some (vocab.get ⟨0, by decide⟩) ∧
    getitem ["Abyssinian_1.jpg"] 0 (by decide) = Except.ok 0 := by
  have hm : reMatch (["Abyssinian_1.jpg"].get ⟨0, by decide⟩)
      = some (vocab.get ⟨0, by decide⟩) := by decide
  exact ⟨hm, c3_vocab_class_index.2.2.2 ["Abyssinian_1.jpg"] 0 (by decide)
    ⟨0, by decide⟩ hm⟩

/-- C4: when the extracted token is not a vocabulary member `getitem` fails
with `labelNotFound`, and when the pattern does not match at all it fails
with `patternMismatch`; in both cases an error is returned, never a
silently skipped sample. -/
theorem c4_fatal_label_errors :
    ∀ files i (h : i < files.length),
      (reMatch (files.get ⟨i, h⟩) = none →
        getitem files i h = Except.error DatasetError.patternMismatch) ∧
      (∀ tok, reMatch (files.get ⟨i, h⟩) = some tok → vocab_map tok = none →
        getitem files i h = Except.error DatasetError.labelNotFound) := by
  intro files i h
  refine ⟨fun hm => ?_, fun tok hm hv => ?_⟩
  · simp only [List.get_eq_getElem] at hm
    simp [getitem, hm]
  · simp only [List.get_eq_getElem] at hm
    simp [getitem, hm, hv]

theorem c4_fatal_label_errors_witness :
    getitem filesEx 0 (by decide) = Except.error DatasetError.labelNotFound ∧
    getitem filesEx 1 (by decide) = Except.error DatasetError.patternMismatch :=
  ⟨(c4_fatal_label_errors filesEx 0 (by decide)).2 "zebra" (by decide)
      (by decide),
    (c4_fatal_label_errors filesEx 1 (by decide)).1 (by decide)⟩

end TrainPets

namespace TrainPets

/-! ### The greedy-match characterization of `reMatchL` -/

/-- A list whose elements all satisfy `p` and which is a prefix of `s` is a
prefix of `s.takeWhile p`. -/
theorem pref_takeWhile (p : Char → Bool) :
    ∀ (t s r : List Char), (∀ x ∈ t, p x = true) → t ++ r = s →
      ∃ q, t ++ q = s.takeWhile p := by
  intro t
  induction t with
  | nil => intro s r _ _; exact ⟨s.takeWhile p, by simp⟩
  | cons c t ih =>
    intro s r hall heq
    rcases s with _ | ⟨d, s2⟩
    · simp at heq
    · rw [List.cons_append] at heq
      injection heq with hcd hts
      subst hcd
      have hc : p c = true := hall c (by simp)
      obtain ⟨q, hq⟩ := ih s2 r (fun x hx => hall x (by simp [hx])) hts
      refine ⟨q, ?_⟩
      rw [List.takeWhile_cons_of_pos hc, List.cons_append, hq]

/-- Any pattern token that is a prefix of `s` is confined by the greedy
decomposition of `s`: the leading letter run of `s` is nonempty, and the
token either sits inside that letter run (which then has length at least
two), or it spans the full letter run, the full underscore run, and part of
the (then nonempty) second letter run. -/
theorem patToken_bound (s t2 : List Char) (hp : isPatToken t2)
    (hpre : ∃ r2, t2 ++ r2 = s) :
    ¬ (s.takeWhile isAsciiLetter).isEmpty = true ∧
    ((t2.length ≤ (s.takeWhile isAsciiLetter).length ∧
        2 ≤ (s.takeWhile isAsciiLetter).length) ∨
      (¬ (((s.dropWhile isAsciiLetter).dropWhile (· == '_')).takeWhile
            isAsciiLetter).isEmpty = true ∧
        t2.length ≤ (s.takeWhile isAsciiLetter).length
          + ((s.dropWhile isAsciiLetter).takeWhile (· == '_')).length
          + (((s.dropWhile isAsciiLetter).dropWhile (· == '_')).takeWhile
              isAsciiLetter).length)) := by
  obtain ⟨a, u', c2, ht2, ha, hc, hla, hlu, hlc⟩ := hp
  obtain ⟨r2, hr2⟩ := hpre
  subst ht2
  have hr2' : a ++ (u' ++ (c2 ++ r2)) = s := by
    simpa [List.append_assoc] using hr2
  obtain ⟨a2, ha2⟩ := pref_takeWhile isAsciiLetter a s (u' ++ (c2 ++ r2))
    hla hr2'
  constructor
  · intro hemp
    rw [List.isEmpty_iff] at hemp
    rw [hemp] at ha2
    exact ha (List.append_eq_nil.mp ha2).1
  · rcases u' with _ | ⟨d, u''⟩
    · left
      have hall : ∀ x ∈ a ++ [] ++ c2, isAsciiLetter x = true := by
        intro x hx
        simp at hx
        rcases hx with hx | hx
        · exact hla x hx
        · exact hlc x hx
      obtain ⟨q, hq⟩ := pref_takeWhile isAsciiLetter (a ++ [] ++ c2) s r2
        hall hr2
      have h1 : 1 ≤ a.length := by
        rcases a with _ | _
        · exact absurd rfl ha
        · simp
      have h2 : 1 ≤ c2.length := by
        rcases c2 with _ | _
        · exact absurd rfl hc
        · simp
      have hlen := congrArg List.length hq
      simp at hlen ⊢
      omega
    · right
      have hd : d = '_' := hlu d (by simp)
      have hencl1 : a ++ (a2 ++ s.dropWhile isAsciiLetter)
          = a ++ ((d :: u'') ++ (c2 ++ r2)) := by
        rw [← List.append_assoc, ha2,
          List.takeWhile_append_dropWhile isAsciiLetter s]
        exact hr2'.symm
      have hcancel1 : a2 ++ s.dropWhile isAsciiLetter
          = (d :: u'') ++ (c2 ++ r2) := List.append_cancel_left hencl1
      have ha2nil : a2 = [] := by
        rcases a2 with _ | ⟨e, a2'⟩
        · rfl
        · exfalso
          have hmem1 : e ∈ s.takeWhile isAsciiLetter := by
            rw [← ha2]
            simp
          have he : isAsciiLetter e = true := List.mem_takeWhile_imp hmem1
          have hed : e = d := by
            simp only [List.cons_append, List.cons.injEq] at hcancel1
            exact hcancel1.1
          rw [hed, hd] at he
          exact absurd he (by decide)
      subst ha2nil
      have haL1 : a = s.takeWhile isAsciiLetter := by simpa using ha2
      have hcancel1' : s.dropWhile isAsciiLetter = (d :: u'') ++ (c2 ++ r2) := by
        simpa using hcancel1
      have hlu' : ∀ x ∈ (d :: u''), (x == '_') = true := by
        intro x hx
        have := hlu x hx
        simp [this]
      obtain ⟨u2, hu2⟩ := pref_takeWhile (· == '_') (d :: u'')
        (s.dropWhile isAsciiLetter) (c2 ++ r2) hlu' hcancel1'.symm
      have hencl2 : (d :: u'')
            ++ (u2 ++ ((s.dropWhile isAsciiLetter).dropWhile (· == '_')))
          = (d :: u'') ++ (c2 ++ r2) := by
        rw [← List.append_assoc, hu2,
          List.takeWhile_append_dropWhile (· == '_') (s.dropWhile isAsciiLetter)]
        exact hcancel1'
      have hcancel2 : u2 ++ ((s.dropWhile isAsciiLetter).dropWhile (· == '_'))
          = c2 ++ r2 := List.append_cancel_left hencl2
      have hu2nil : u2 = [] := by
        rcases u2 with _ | ⟨e, u2'⟩
        · rfl
        · exfalso
          have hmem2 : e ∈ (s.dropWhile isAsciiLetter).takeWhile (· == '_') := by
            rw [← hu2]
            simp
          have he := List.mem_takeWhile_imp hmem2
          rcases c2 with _ | ⟨f, c2'⟩
          · exact hc rfl
          · have hef : e = f := by
              simp only [List.cons_append, List.cons.injEq] at hcancel2
              exact hcancel2.1
            have hf : isAsciiLetter f = true := hlc f (by simp)
            rw [hef] at he
            have hfu : f = '_' := by simpa using he
            rw [hfu] at hf
            exact absurd hf (by decide)
      subst hu2nil
      have huU : (d :: u'')
          = (s.dropWhile isAsciiLetter).takeWhile (· == '_') := by
        simpa using hu2
      have hcancel2' : (s.dropWhile isAsciiLetter).dropWhile (· == '_')
          = c2 ++ r2 := by
        simpa using hcancel2
      obtain ⟨c3, hc3⟩ := pref_takeWhile isAsciiLetter c2
        ((s.dropWhile isAsciiLetter).dropWhile (· == '_')) r2 hlc
        hcancel2'.symm
      constructor
      · intro hemp
        rw [List.isEmpty_iff] at hemp
        rw [hemp] at hc3
        exact hc (List.append_eq_nil.mp hc3).1
      · have e1 := congrArg List.length haL1
        have e2 := congrArg List.length huU
        have e3 := congrArg List.length hc3
        simp at e1 e2 e3 ⊢
        omega

end TrainPets

namespace TrainPets

/-- Branch analysis of a successful match: the result is a prefix of `s`,
a pattern token, and is either the (length ≥ 2) leading letter run alone
(when no letter follows the underscore run) or the full
letters-underscores-letters decomposition. -/
theorem reMatchL_some_facts (s t : List Char) (h : reMatchL s = some t) :
    (∃ r, t ++ r = s) ∧ isPatToken t ∧
    ((t = s.takeWhile isAsciiLetter ∧ 2 ≤ t.length ∧
        (((s.dropWhile isAsciiLetter).dropWhile (· == '_')).takeWhile
            isAsciiLetter).isEmpty = true) ∨
      t = s.takeWhile isAsciiLetter
          ++ (s.dropWhile isAsciiLetter).takeWhile (· == '_')
          ++ ((s.dropWhile isAsciiLetter).dropWhile (· == '_')).takeWhile
              isAsciiLetter) := by
  simp only [reMatchL] at h
  split_ifs at h with h1 h2 h3
  · have ht : t = s.takeWhile isAsciiLetter := (Option.some.inj h).symm
    subst ht
    have hne : s.takeWhile isAsciiLetter ≠ [] := by
      intro h0
      rw [h0] at h3
      simp at h3
    refine ⟨⟨s.dropWhile isAsciiLetter,
        List.takeWhile_append_dropWhile isAsciiLetter s⟩, ?_, ?_⟩
    · refine ⟨(s.takeWhile isAsciiLetter).dropLast, [],
        [(s.takeWhile isAsciiLetter).getLast hne], ?_, ?_, by simp, ?_,
        by simp, ?_⟩
      · rw [List.append_nil, List.dropLast_append_getLast hne]
      · have hpos : 0 < (s.takeWhile isAsciiLetter).dropLast.length := by
          rw [List.length_dropLast]
          omega
        exact List.length_pos.mp hpos
      · intro x hx
        exact List.mem_takeWhile_imp (List.dropLast_subset _ hx)
      · intro x hx
        simp at hx
        subst hx
        exact List.mem_takeWhile_imp (List.getLast_mem hne)
    · exact Or.inl ⟨rfl, h3, h2⟩
  · have ht : t = s.takeWhile isAsciiLetter
        ++ (s.dropWhile isAsciiLetter).takeWhile (· == '_')
        ++ ((s.dropWhile isAsciiLetter).dropWhile (· == '_')).takeWhile
            isAsciiLetter := (Option.some.inj h).symm
    subst ht
    refine ⟨⟨(((s.dropWhile isAsciiLetter).dropWhile (· == '_')).dropWhile
        isAsciiLetter), ?_⟩, ?_, Or.inr rfl⟩
    · simp only [List.append_assoc]
      rw [List.takeWhile_append_dropWhile isAsciiLetter
          ((s.dropWhile isAsciiLetter).dropWhile (· == '_')),
        List.takeWhile_append_dropWhile (· == '_') (s.dropWhile isAsciiLetter),
        List.takeWhile_append_dropWhile isAsciiLetter s]
    · refine ⟨s.takeWhile isAsciiLetter,
        (s.dropWhile isAsciiLetter).takeWhile (· == '_'),
        ((s.dropWhile isAsciiLetter).dropWhile (· == '_')).takeWhile
            isAsciiLetter, rfl, ?_, ?_, ?_, ?_, ?_⟩
      · intro h0
        rw [h0] at h1
        simp at h1
      · intro h0
        rw [h0] at h2
        simp at h2
      · intro x hx
        exact List.mem_takeWhile_imp hx
      · intro x hx
        have := List.mem_takeWhile_imp hx
        simpa using this
      · intro x hx
        exact List.mem_takeWhile_imp hx

/-- Branch analysis of a failed match: either `s` does not start with a
letter, or no letter follows the underscore run and the leading letter run
has fewer than two characters. -/
theorem reMatchL_none_facts (s : List Char) (h : reMatchL s = none) :
    (s.takeWhile isAsciiLetter).isEmpty = true ∨
    ((((s.dropWhile isAsciiLetter).dropWhile (· == '_')).takeWhile
        isAsciiLetter).isEmpty = true ∧
      ¬ 2 ≤ (s.takeWhile isAsciiLetter).length) := by
  simp only [reMatchL] at h
  split_ifs at h with h1 h2 h3
  · exact Or.inl h1
  · exact Or.inr ⟨h2, h3⟩

end TrainPets

namespace TrainPets

/-- C2 (counterexample): on the real PETS filename
`english_cocker_spaniel_10.jpg` the code extracts `english_cocker` — the
match stops at the second underscore run — while the leading token of
letters and underscores described by the claim is
`english_cocker_spaniel_`. -/
theorem c2_leading_token_counterexample :
    reMatch "english_cocker_spaniel_10.jpg" = some "english_cocker" ∧
    specLeadingToken "english_cocker_spaniel_10.jpg"
      = some "english_cocker_spaniel_" ∧
    reMatch "english_cocker_spaniel_10.jpg"
      ≠ specLeadingToken "english_cocker_spaniel_10.jpg" :=
  ⟨by decide, by decide, by decide⟩

/-- C2 (amended): the extraction is the greedy anchored match of
`[a-zA-Z]+_*[a-zA-Z]+`: whenever it succeeds the result is the longest
prefix of the filename consisting of a letter run, one underscore run and a
second letter run (so it stops before any second underscore run), and it
fails exactly when no such prefix exists — each filename therefore has at
most this one match, and absence of a match is the fatal
`patternMismatch` case of `getitem`. -/
theorem c2_greedy_extraction :
    ∀ s : List Char,
      (∀ t, reMatchL s = some t →
        (∃ r, t ++ r = s) ∧ isPatToken t ∧
        ∀ t2, isPatToken t2 → (∃ r2, t2 ++ r2 = s) →
          t2.length ≤ t.length) ∧
      (reMatchL s = none → ∀ t2, isPatToken t2 → ¬ ∃ r2, t2 ++ r2 = s) := by
  intro s
  constructor
  · intro t h
    obtain ⟨hpre, htok, hcase⟩ := reMatchL_some_facts s t h
    refine ⟨hpre, htok, ?_⟩
    intro t2 hp2 hpre2
    obtain ⟨_, hbound⟩ := patToken_bound s t2 hp2 hpre2
    rcases hcase with ⟨ht, _, hl2emp⟩ | ht
    · rcases hbound with ⟨hle, _⟩ | ⟨hl2ne, _⟩
      · rw [ht]
        exact hle
      · exact absurd hl2emp hl2ne
    · have hlen : t.length = (s.takeWhile isAsciiLetter).length
          + ((s.dropWhile isAsciiLetter).takeWhile (· == '_')).length
          + (((s.dropWhile isAsciiLetter).dropWhile (· == '_')).takeWhile
              isAsciiLetter).length := by
        rw [ht]
        simp [List.length_append]
        omega
      rcases hbound with ⟨hle, _⟩ | ⟨_, hle⟩
      · omega
      · omega
  · intro h t2 hp2 hpre2
    obtain ⟨hl1ne, hbound⟩ := patToken_bound s t2 hp2 hpre2
    rcases reMatchL_none_facts s h with h1 | ⟨h2, h3⟩
    · exact hl1ne h1
    · rcases hbound with ⟨_, hge⟩ | ⟨hl2ne, _⟩
      · exact h3 hge
      · exact hl2ne h2

theorem c2_greedy_extraction_witness :
    reMatchL ("english_cocker_spaniel_10.jpg".data)
        = some ("english_cocker".data) ∧
    ((∃ r, "english_cocker".data ++ r = "english_cocker_spaniel_10.jpg".data) ∧
      isPatToken ("english_cocker".data) ∧
      ∀ t2, isPatToken t2 →
        (∃ r2, t2 ++ r2 = "english_cocker_spaniel_10.jpg".data) →
        t2.length ≤ ("english_cocker".data).length) := by
  have hm : reMatchL ("english_cocker_spaniel_10.jpg".data)
      = some ("english_cocker".data) := by decide
  exact ⟨hm, (c2_greedy_extraction ("english_cocker_spaniel_10.jpg".data)).1
    ("english_cocker".data) hm⟩

end TrainPets
